import Mathlib

/-!
# Verification of the Monte Carlo π estimator (src/main.go)

Shallow embedding of the Go program. Real numbers (Go `float64`) are
modelled as rationals; random generators are modelled as abstract sample
streams `ℕ → ℚ × ℚ` (the i-th call pair of `rand.Float64()` values);
machine `int` counters are modelled as `ℤ` (the values involved stay far
below 2^63, so no wraparound occurs in the source).
-/

namespace MCPi

/-- The constant `TotalPoints` (src/main.go:11). -/
def TotalPoints : ℕ := 1000000

/-- The point classifier `x*x + y*y <= 1.0` used by both the sequential
loop (src/main.go:23) and the worker loop (src/main.go:46). -/
def insideUnitCircle (x y : ℚ) : Bool := decide (x * x + y * y ≤ 1)

/-- The sampling loop shared verbatim by `sequentialPi` (src/main.go:18-26)
and `worker` (src/main.go:42-49): iterate `numPoints` times over the
generator stream `g`, incrementing the `insideCircle` counter exactly when
the sample is classified inside the unit circle. -/
def countInside (g : ℕ → ℚ × ℚ) (numPoints : ℕ) : ℤ :=
  (List.range numPoints).foldl
    (fun insideCircle i =>
      if insideUnitCircle (g i).1 (g i).2 then insideCircle + 1 else insideCircle)
    0

/-- `sequentialPi` (src/main.go:14-30): runs the loop over `numPoints`
samples and returns `4.0 * float64(insideCircle) / float64(numPoints)`. -/
def sequentialPi (g : ℕ → ℚ × ℚ) (numPoints : ℕ) : ℚ :=
  4 * (countInside g numPoints : ℚ) / (numPoints : ℚ)

/-- `worker` (src/main.go:34-53): runs the same loop on its own generator
and sends `insideCircle` on the result channel; the value modelled here is
the value sent. -/
def worker (g : ℕ → ℚ × ℚ) (numPoints : ℕ) : ℤ := countInside g numPoints

/-- The seed computed by `worker` (src/main.go:38):
`time.Now().UnixNano() + int64(numPoints)`. -/
def workerSeed (unixNano : ℤ) (numPoints : ℤ) : ℤ := unixNano + numPoints

/-- The partition size handed to goroutine `i` (src/main.go:63-74):
`pointsPerWorker = totalPoints / numThreads` plus one when
`i < totalPoints % numThreads`. -/
def currentPoints (totalPoints numThreads i : ℕ) : ℕ :=
  totalPoints / numThreads + if i < totalPoints % numThreads then 1 else 0

/-- The list of all `numThreads` partition sizes, in launch order
(src/main.go:70-81). -/
def partitionSizes (totalPoints numThreads : ℕ) : List ℕ :=
  (List.range numThreads).map (currentPoints totalPoints numThreads)

/-- Modelled from the spec's words (for the refinement clause of the
partitioning claim): the first `N mod W` partitions receive
`floor(N/W) + 1` samples and the remaining partitions receive exactly
`floor(N/W)`. -/
def specPartitionSizes (totalPoints numThreads : ℕ) : List ℕ :=
  (List.range numThreads).map (fun i =>
    if i < totalPoints % numThreads then totalPoints / numThreads + 1
    else totalPoints / numThreads)

/-- The per-worker results in launch order (src/main.go:70-81): worker `i`
runs on its own generator `gs i` with its partition size. -/
def workerResults (gs : ℕ → ℕ → ℚ × ℚ) (totalPoints numThreads : ℕ) : List ℤ :=
  (List.range numThreads).map
    (fun i => worker (gs i) (currentPoints totalPoints numThreads i))

/-- The aggregation loop (src/main.go:90-93): `totalInside` sums every
value received on the result channel. -/
def totalInside (gs : ℕ → ℕ → ℚ × ℚ) (totalPoints numThreads : ℕ) : ℤ :=
  (workerResults gs totalPoints numThreads).sum

/-- `parallelPi` final estimate (src/main.go:98):
`4.0 * float64(totalInside) / float64(totalPoints)`. -/
def parallelPi (gs : ℕ → ℕ → ℚ × ℚ) (totalPoints numThreads : ℕ) : ℚ :=
  4 * (totalInside gs totalPoints numThreads : ℚ) / (totalPoints : ℚ)

/-- `parallelPi` with its one fallible operation made explicit: the
unguarded integer divisions `totalPoints / numThreads` and
`totalPoints % numThreads` (src/main.go:63-64) panic in Go when
`numThreads = 0`; every other step is total. -/
def parallelPiChecked (gs : ℕ → ℕ → ℚ × ℚ) (totalPoints numThreads : ℕ) :
    Option ℚ :=
  if numThreads = 0 then none else some (parallelPi gs totalPoints numThreads)

/-- One data row of the final report table (src/main.go:118 and 129):
the worker count, the π estimate as printed with 6 decimal places, and the
elapsed time in milliseconds as printed with 2 decimal places. -/
structure ReportRow where
  threads : ℕ
  piShown : ℚ
  msShown : ℚ

/-- Fixed-point rendering with d decimal places, modelling the rounding
performed by the format verbs `%.6f` and `%.2f`. -/
def fmtFixed (d : ℕ) (q : ℚ) : ℚ := (round (q * 10 ^ d) : ℤ) / 10 ^ d

/-- Millisecond value printed by main (src/main.go:118,129): the elapsed
nanoseconds truncated to whole microseconds by `Duration.Microseconds`,
then divided by 1000.0. -/
def msOf (elapsedNs : ℕ) : ℚ := ((elapsedNs / 1000 : ℕ) : ℚ) / 1000

/-- The worker-count configurations `threadCounts` (src/main.go:120). -/
def threadCounts : List ℕ := [2, 4, 8, 16, 32, 64]

/-- The nondeterministic inputs of one program run: the sequential
generator stream, a generator family per configuration and worker, and the
measured elapsed nanoseconds of each run. -/
structure RunInputs where
  seqGen : ℕ → ℚ × ℚ
  parGen : ℕ → ℕ → ℕ → ℚ × ℚ
  seqElapsedNs : ℕ
  parElapsedNs : ℕ → ℕ

/-- The sequential data row appended first (src/main.go:118), labelled
with worker count 1. -/
def seqRow (inp : RunInputs) : ReportRow :=
  ⟨1, fmtFixed 6 (sequentialPi inp.seqGen TotalPoints),
    fmtFixed 2 (msOf inp.seqElapsedNs)⟩

/-- The data row appended for one parallel configuration
(src/main.go:122-130). -/
def parRow (inp : RunInputs) (w : ℕ) : ReportRow :=
  ⟨w, fmtFixed 6 (parallelPi (inp.parGen w) TotalPoints w),
    fmtFixed 2 (msOf (inp.parElapsedNs w))⟩

/-- The data rows of the final report table in the order main appends
them (src/main.go:114-130): the sequential row, then one row per entry of
`threadCounts`. -/
def mainRows (inp : RunInputs) : List ReportRow :=
  seqRow inp :: threadCounts.map (parRow inp)

/-- The parallel row with the fallible division made explicit: `none`
exactly when `parallelPiChecked` faults. -/
def parRowChecked (inp : RunInputs) (w : ℕ) : Option ReportRow :=
  (parallelPiChecked (inp.parGen w) TotalPoints w).map
    (fun est => ⟨w, fmtFixed 6 est, fmtFixed 2 (msOf (inp.parElapsedNs w))⟩)

/-- The whole run with every fallible operation made explicit: it yields
the full report exactly when no configuration faults. -/
def mainChecked (inp : RunInputs) : Option (List ReportRow) :=
  (threadCounts.mapM (parRowChecked inp)).map (fun rows => seqRow inp :: rows)

/- ## Helper lemmas -/

/-- Counting loop as a filter length: folding the increment-if body over a
list starting from `acc` adds the number of elements satisfying `p`. -/
lemma foldl_count_eq (p : ℕ → Bool) (l : List ℕ) : ∀ acc : ℤ,
    l.foldl (fun c i => if p i then c + 1 else c) acc
      = acc + ((l.filter p).length : ℤ) := by
  induction l with
  | nil => intro acc; simp
  | cons a t ih =>
      intro acc
      by_cases h : p a
      · simp only [List.foldl_cons, h, if_true, ih, List.filter_cons,
          List.length_cons]
        push_cast
        ring
      · simp [List.foldl_cons, h, ih, List.filter_cons]

/-- The `insideCircle` counter equals the number of indices below
`numPoints` whose sample lands inside the circle. -/
lemma countInside_eq_filter_length (g : ℕ → ℚ × ℚ) (n : ℕ) :
    countInside g n
      = (((List.range n).filter (fun i => insideUnitCircle (g i).1 (g i).2)).length : ℤ) := by
  unfold countInside
  rw [foldl_count_eq]
  ring

/-- Sum of `q` plus an extra unit for each index below `r`, over
`range W`. -/
lemma sum_range_map_extra (q r : ℕ) (W : ℕ) :
    ((List.range W).map (fun i => q + if i < r then 1 else 0)).sum
      = W * q + min r W := by
  induction W with
  | zero => simp
  | succ w ih =>
      rw [List.range_succ, List.map_append, List.sum_append, ih]
      simp only [List.map_cons, List.map_nil, List.sum_cons, List.sum_nil]
      have hmul : (w + 1) * q = w * q + q := by ring
      rw [hmul]
      by_cases h : w < r
      · rw [if_pos h]
        omega
      · rw [if_neg h]
        omega

/-- Closed form for the sum of all partition sizes. -/
lemma partitionSizes_sum (N W : ℕ) :
    (partitionSizes N W).sum = W * (N / W) + min (N % W) W := by
  have h : partitionSizes N W
      = (List.range W).map (fun i => N / W + if i < N % W then 1 else 0) := rfl
  rw [h, sum_range_map_extra]

/-- The source partitioning agrees pointwise with the spec-worded one. -/
lemma partitionSizes_eq_spec (N W : ℕ) :
    partitionSizes N W = specPartitionSizes N W := by
  simp only [partitionSizes, specPartitionSizes, currentPoints]
  congr 1
  funext i
  by_cases h : i < N % W <;> simp [currentPoints, h]

/-- A value rendered with d decimal places times 10^d is an integer. -/
lemma fmtFixed_den (d : ℕ) (q : ℚ) : (fmtFixed d q * 10 ^ d).den = 1 := by
  unfold fmtFixed
  have h10 : ((10 : ℚ) ^ d) ≠ 0 := by positivity
  rw [div_mul_cancel₀ _ h10]
  exact Rat.den_intCast _

/- ## Claims -/

/-- Claim C1: for every N ≥ 1 and W ≥ 1, `parallelPi`'s partitioning
produces W partition sizes summing exactly to N, the first `N mod W` of
them being `floor(N/W) + 1` and the rest exactly `floor(N/W)`. -/
theorem claim1_partitioning (N W : ℕ) (hN : 1 ≤ N) (hW : 1 ≤ W) :
    (partitionSizes N W).length = W ∧
    (partitionSizes N W).sum = N ∧
    partitionSizes N W = specPartitionSizes N W := by
  refine ⟨by simp [partitionSizes], ?_, partitionSizes_eq_spec N W⟩
  rw [partitionSizes_sum]
  have hmod : N % W < W := Nat.mod_lt _ hW
  rw [Nat.min_eq_left (le_of_lt hmod)]
  exact Nat.div_add_mod N W

/-- Witness for C1 at N = 10, W = 4. -/
theorem claim1_partitioning_witness :
    1 ≤ 10 ∧ 1 ≤ 4 ∧
      ((partitionSizes 10 4).length = 4 ∧
       (partitionSizes 10 4).sum = 10 ∧
       partitionSizes 10 4 = specPartitionSizes 10 4) :=
  ⟨by decide, by decide, claim1_partitioning 10 4 (by decide) (by decide)⟩

/-- Claim C2: `parallelPi` returns 4 × (sum of the W worker counts) / N,
the aggregate equals the sum of the individually reported counts, and the
sum (hence the estimate) is invariant under any arrival order of the
results on the channel. -/
theorem claim2_aggregation (gs : ℕ → ℕ → ℚ × ℚ) (N W : ℕ) (received : List ℤ)
    (hperm : received.Perm (workerResults gs N W)) :
    parallelPi gs N W = 4 * (((workerResults gs N W).sum : ℤ) : ℚ) / (N : ℚ) ∧
    received.sum = totalInside gs N W ∧
    4 * ((received.sum : ℤ) : ℚ) / (N : ℚ) = parallelPi gs N W := by
  have hsum : received.sum = (workerResults gs N W).sum := hperm.sum_eq
  refine ⟨rfl, hsum, ?_⟩
  rw [hsum]
  rfl

/-- Witness for C2: two workers on N = 3, reversed arrival order. -/
theorem claim2_aggregation_witness :
    (([1, 2] : List ℤ).Perm (workerResults (fun _ _ => ((0 : ℚ), 0)) 3 2)) ∧
    (parallelPi (fun _ _ => ((0 : ℚ), 0)) 3 2
        = 4 * (((workerResults (fun _ _ => ((0 : ℚ), 0)) 3 2).sum : ℤ) : ℚ) / (3 : ℚ) ∧
     ([1, 2] : List ℤ).sum = totalInside (fun _ _ => ((0 : ℚ), 0)) 3 2 ∧
     4 * ((([1, 2] : List ℤ).sum : ℤ) : ℚ) / (3 : ℚ)
        = parallelPi (fun _ _ => ((0 : ℚ), 0)) 3 2) := by
  have hw : workerResults (fun _ _ => ((0 : ℚ), 0)) 3 2 = [2, 1] := by
    simp [workerResults, worker, countInside, currentPoints, insideUnitCircle,
      List.range_succ]
  have hperm : ([1, 2] : List ℤ).Perm (workerResults (fun _ _ => ((0 : ℚ), 0)) 3 2) := by
    rw [hw]
    exact List.Perm.swap 2 1 []
  exact ⟨hperm, claim2_aggregation (fun _ _ => ((0 : ℚ), 0)) 3 2 [1, 2] hperm⟩

/-- Claim C3: `sequentialPi` iterates exactly N times, its counter equals
the number of the N samples classified inside the circle, and it returns
4 × count / N. -/
theorem claim3_sequential (g : ℕ → ℚ × ℚ) (N : ℕ) (hN : 1 ≤ N) :
    (List.range N).length = N ∧
    countInside g N
      = (((List.range N).filter (fun i => insideUnitCircle (g i).1 (g i).2)).length : ℤ) ∧
    sequentialPi g N = 4 * ((countInside g N : ℤ) : ℚ) / (N : ℚ) :=
  ⟨List.length_range N, countInside_eq_filter_length g N, rfl⟩

/-- Witness for C3 with the constant-origin stream and N = 2. -/
theorem claim3_sequential_witness :
    1 ≤ 2 ∧
    ((List.range 2).length = 2 ∧
     countInside (fun _ => ((0 : ℚ), 0)) 2
        = (((List.range 2).filter
            (fun i => insideUnitCircle ((fun _ => ((0 : ℚ), 0)) i).1
              ((fun _ => ((0 : ℚ), 0)) i).2)).length : ℤ) ∧
     sequentialPi (fun _ => ((0 : ℚ), 0)) 2
        = 4 * ((countInside (fun _ => ((0 : ℚ), 0)) 2 : ℤ) : ℚ) / (2 : ℚ)) :=
  ⟨by decide, claim3_sequential (fun _ => ((0 : ℚ), 0)) 2 (by decide)⟩

/-- Claim C4: the point classifier is true exactly when x² + y² ≤ 1, and
in particular (0,0), (0.6,0.6) and (1,0) are inside while (1,1) is
outside; it is a pure function of its arguments. -/
theorem claim4_classifier :
    (∀ x y : ℚ, insideUnitCircle x y = true ↔ x * x + y * y ≤ 1) ∧
    insideUnitCircle 0 0 = true ∧
    insideUnitCircle (6 / 10) (6 / 10) = true ∧
    insideUnitCircle 1 0 = true ∧
    insideUnitCircle 1 1 = false := by
  refine ⟨fun x y => by simp [insideUnitCircle], ?_, ?_, ?_, ?_⟩ <;>
    norm_num [insideUnitCircle]

/-- Claim C5: on every sample stream the inside-circle counter is never
negative and never exceeds the number of samples processed, both for a
worker on its partition and for the sequential loop on N. -/
theorem claim5_counter_bounds :
    (∀ (g : ℕ → ℚ × ℚ) (pts : ℕ), 0 ≤ worker g pts ∧ worker g pts ≤ (pts : ℤ)) ∧
    (∀ (g : ℕ → ℚ × ℚ) (N : ℕ), 0 ≤ countInside g N ∧ countInside g N ≤ (N : ℤ)) := by
  have key : ∀ (g : ℕ → ℚ × ℚ) (n : ℕ),
      0 ≤ countInside g n ∧ countInside g n ≤ (n : ℤ) := by
    intro g n
    have h := countInside_eq_filter_length g n
    have hle : ((List.range n).filter
        (fun i => insideUnitCircle (g i).1 (g i).2)).length ≤ n := by
      have := List.length_filter_le
        (fun i => insideUnitCircle (g i).1 (g i).2) (List.range n)
      simpa using this
    omega
  exact ⟨fun g pts => key g pts, key⟩

/-- Claim C6 (code bug): under the program's own configuration
(N = 1000000, W = 4) workers 0 and 1 are distinct logical workers with
equal partition sizes (250000 each), so whenever their `UnixNano` readings
coincide (say both read t = 0) the seed `t + int64(numPoints)` computed at
src/main.go:38 is identical for both — the seed is not unique per logical
worker as the spec requires. -/
theorem claim6_seed_collision :
    (0 : ℕ) ≠ 1 ∧
    currentPoints 1000000 4 0 = 250000 ∧
    currentPoints 1000000 4 1 = 250000 ∧
    workerSeed 0 (currentPoints 1000000 4 0 : ℤ) =
      workerSeed 0 (currentPoints 1000000 4 1 : ℤ) := by
  refine ⟨by decide, by decide, by decide, ?_⟩
  rfl

/-- Claim C7: a worker handed a 0-sample partition (which arises whenever
N < W, for every index i with N ≤ i < W) runs its loop 0 times and reports
exactly 0. -/
theorem claim7_zero_partition (g : ℕ → ℚ × ℚ) (N W i : ℕ)
    (hNW : N < W) (hiN : N ≤ i) (hiW : i < W) :
    currentPoints N W i = 0 ∧
    worker g (currentPoints N W i) = 0 ∧
    worker g 0 = 0 := by
  have h1 : N / W = 0 := Nat.div_eq_of_lt hNW
  have h2 : N % W = N := Nat.mod_eq_of_lt hNW
  have hc : currentPoints N W i = 0 := by
    simp [currentPoints, h1, h2, Nat.not_lt.mpr hiN]
  exact ⟨hc, by rw [hc]; rfl, rfl⟩

/-- Witness for C7 at N = 1, W = 2, i = 1. -/
theorem claim7_zero_partition_witness :
    1 < 2 ∧ 1 ≤ 1 ∧ 1 < 2 ∧
      (currentPoints 1 2 1 = 0 ∧
       worker (fun _ => ((0 : ℚ), 0)) (currentPoints 1 2 1) = 0 ∧
       worker (fun _ => ((0 : ℚ), 0)) 0 = 0) :=
  ⟨by decide, by decide, by decide,
    claim7_zero_partition (fun _ => ((0 : ℚ), 0)) 1 2 1
      (by decide) (by decide) (by decide)⟩

/-- Claim C10: `parallelPi` divides by `numThreads` with no guard, so it
faults exactly at numThreads = 0; under the precondition numThreads ≥ 1
the failure branch is unreachable and the estimate is produced. -/
theorem claim10_division_guard (gs : ℕ → ℕ → ℚ × ℚ) (N W : ℕ) (hW : 1 ≤ W) :
    parallelPiChecked gs N 0 = none ∧
    parallelPiChecked gs N W = some (parallelPi gs N W) := by
  constructor
  · rfl
  · simp [parallelPiChecked, Nat.one_le_iff_ne_zero.mp hW]

/-- Witness for C10 at N = 5, W = 2. -/
theorem claim10_division_guard_witness :
    1 ≤ 2 ∧
      (parallelPiChecked (fun _ _ => ((0 : ℚ), 0)) 5 0 = none ∧
       parallelPiChecked (fun _ _ => ((0 : ℚ), 0)) 5 2
          = some (parallelPi (fun _ _ => ((0 : ℚ), 0)) 5 2)) :=
  ⟨by decide, claim10_division_guard (fun _ _ => ((0 : ℚ), 0)) 5 2 (by decide)⟩

/-- Claim C8: the report table has exactly one data row per executed run
(7 in total), ordered sequential-first then ascending worker counts
2, 4, 8, 16, 32, 64, and every row's π estimate and millisecond time are
rendered to 6 and 2 decimal places respectively. -/
theorem claim8_report (inp : RunInputs) :
    (mainRows inp).length = 7 ∧
    (mainRows inp).map ReportRow.threads = [1, 2, 4, 8, 16, 32, 64] ∧
    List.Chain' (· < ·) ((mainRows inp).map ReportRow.threads) ∧
    ∀ row, row ∈ mainRows inp →
      (row.piShown * 10 ^ 6).den = 1 ∧ (row.msShown * 10 ^ 2).den = 1 := by
  have hmap : (mainRows inp).map ReportRow.threads = [1, 2, 4, 8, 16, 32, 64] := by
    simp [mainRows, seqRow, parRow, threadCounts]
  refine ⟨by simp [mainRows, threadCounts], hmap, ?_, ?_⟩
  · rw [hmap]
    norm_num [List.chain'_cons]
  · intro row hrow
    simp only [mainRows, threadCounts, List.map_cons, List.map_nil,
      List.mem_cons, List.mem_singleton, List.not_mem_nil, or_false] at hrow
    rcases hrow with h | h | h | h | h | h | h <;> subst h <;>
      exact ⟨fmtFixed_den _ _, fmtFixed_den _ _⟩

/-- Witness for C8: the concrete all-origin, zero-time run. -/
theorem claim8_report_witness :
    (seqRow ⟨fun _ => ((0 : ℚ), 0), fun _ _ _ => ((0 : ℚ), 0), 0, fun _ => 0⟩
        ∈ mainRows ⟨fun _ => ((0 : ℚ), 0), fun _ _ _ => ((0 : ℚ), 0), 0, fun _ => 0⟩) ∧
    (((seqRow ⟨fun _ => ((0 : ℚ), 0), fun _ _ _ => ((0 : ℚ), 0), 0, fun _ => 0⟩).piShown
        * 10 ^ 6).den = 1 ∧
     ((seqRow ⟨fun _ => ((0 : ℚ), 0), fun _ _ _ => ((0 : ℚ), 0), 0, fun _ => 0⟩).msShown
        * 10 ^ 2).den = 1) :=
  ⟨List.mem_cons_self _ _,
    (claim8_report ⟨fun _ => ((0 : ℚ), 0), fun _ _ _ => ((0 : ℚ), 0), 0, fun _ => 0⟩).2.2.2
      _ (List.mem_cons_self _ _)⟩

/-- Claim C9: on the documented fixed inputs (TotalPoints = 1000000 and
worker counts 2, 4, 8, 16, 32, 64) no operation in the run faults: the
checked run, in which every fallible step returns an `Option`, always
completes and yields the full report. -/
theorem claim9_total_run (inp : RunInputs) :
    mainChecked inp = some (mainRows inp) := rfl

end MCPi
